import Mathlib

/-!
Verification development for the voice-insight worker manager.

This file shallowly embeds the state and operations of the repository's
worker manager (`src/worker_manager.py`) and memory module
(`src/core/memory.py`) and proves the behavioural claims about them.

Modelling conventions:
* Python `float` values (memory sizes in GB, `time.time()` timestamps) are
  modelled as exact rationals `ℚ`; every claim under study is about branch
  logic and accumulation order, not float rounding.
* The registry `self.workers` is a Python `dict` (insertion ordered, unique
  keys); it is modelled as a `List WorkerProcess` kept in insertion order,
  with lookup by the first matching `alias`.
* Effects (OS process creation, HTTP health polling, reads of the model
  catalog and the memory oracle) are modelled as an explicit environment
  `Env` for the inputs and an event record `EnsureOutcome` for the outputs:
  `spawnedPorts` lists one entry per `subprocess.Popen` call,
  `consultedCatalog` / `consultedOracle` record whether `self.config.models`
  resp. `get_memory_status()` were read on the taken path.
* Exceptions (`HTTPException(404)`, the `RuntimeError`s of
  `_wait_for_worker`) are modelled as error results.
-/

namespace VoiceInsight

/-- One record of the registry: the fields of the Python dataclass
`WorkerProcess` (`src/worker_manager.py` lines 20-30).  The
`subprocess.Popen` handle is not a value; the OS-level spawn is tracked as
an event instead (see `EnsureOutcome.spawnedPorts`). -/
structure WorkerProcess where
  «alias» : String
  port : Nat
  model_path : String
  model_type : String
  memory_gb : ℚ
  started_at : ℚ
  last_used : ℚ
  request_count : Nat
deriving Repr, DecidableEq

/-- The slice of `ModelConfig` (`src/core/config.py`) that the worker
manager reads: the backend kind and the model path. -/
structure ModelConfig where
  type : String
  path : String
deriving Repr, DecidableEq

/-- `MemoryStatus` (`src/core/memory.py` lines 30-41). -/
structure MemoryStatus where
  total_gb : ℚ
  used_gb : ℚ
  available_gb : ℚ
  app_memory_gb : ℚ
  wired_gb : ℚ
  compressed_gb : ℚ
deriving Repr, DecidableEq

/-- `MemoryStatus.usage_percent` (`src/core/memory.py` line 41):
`(self.used_gb / self.total_gb) * 100 if self.total_gb > 0 else 0`. -/
def MemoryStatus.usage_percent (m : MemoryStatus) : ℚ :=
  if 0 < m.total_gb then m.used_gb / m.total_gb * 100 else 0

/-- `MODEL_MEMORY_REQUIREMENTS` (`src/core/memory.py` lines 14-27), as an
association list in source order. -/
def MODEL_MEMORY_REQUIREMENTS : List (String × ℚ) :=
  [("mlx-community/whisper-large-v3-turbo", 1.5),
   ("mlx-community/whisper-large-v3-mlx", 3.0),
   ("mlx-community/whisper-large-v3-turbo-asr-fp16", 1.5),
   ("mlx-community/distil-whisper-large-v3", 1.2),
   ("mlx-community/Kokoro-82M-bf16", 0.5),
   ("Marvis-AI/marvis-tts-250m-v0.1", 1.0),
   ("mistralai/Voxtral-Mini-4B-Realtime-2602", 8.0),
   ("Qwen/Qwen3-TTS-12Hz-1.7B-Base", 4.0)]

/-- Whether `pat` occurs at the head of `l` (helper for Python's
substring test `pat in s`). -/
def charsHasPrefixOf : List Char → List Char → Bool
  | [], _ => true
  | _ :: _, [] => false
  | c :: cs, d :: ds => c == d && charsHasPrefixOf cs ds

/-- Whether `pat` occurs anywhere inside `l` (Python's `pat in s`). -/
def charsContains (pat : List Char) : List Char → Bool
  | [] => pat.isEmpty
  | c :: rest => charsHasPrefixOf pat (c :: rest) || charsContains pat rest

/-- Python's `needle in hay` on strings. -/
def strContainsSub (hay needle : String) : Bool :=
  charsContains needle.toList hay.toList

/-- Python's `s.lower()`. -/
def strLower (s : String) : String := s.map Char.toLower

/-- `get_model_memory_requirement` (`src/core/memory.py` lines 141-166):
the table lookup followed by the name-based heuristics. -/
def get_model_memory_requirement (model_path model_type : String) : ℚ :=
  match MODEL_MEMORY_REQUIREMENTS.find? (fun p => p.1 == model_path) with
  | some p => p.2
  | none =>
    let lower := strLower model_path
    if model_type == "stt" then
      if strContainsSub lower "turbo" then 1.5
      else if strContainsSub lower "large" then 3.0
      else if strContainsSub lower "medium" then 1.5
      else if strContainsSub lower "small" then 0.5
      else 2.0
    else if model_type == "tts" then
      if strContainsSub lower "250m" then 1.0
      else if strContainsSub lower "82m" then 0.5
      else 1.0
    else 2.0

/-- The mutable state of `WorkerManager`: the registry dict
`self.workers` (insertion ordered) and the port counter `self._next_port`. -/
structure ManagerState where
  workers : List WorkerProcess
  next_port : Nat
deriving Repr, DecidableEq

/-- `alias in self.workers` / `self.workers[alias]`: first record whose
alias matches (unique in any state reachable from a dict). -/
def lookupWorker (s : ManagerState) (a : String) : Option WorkerProcess :=
  s.workers.find? (fun w => w.alias == a)

/-- `self.workers.pop(alias)`: drop the first record with the given alias. -/
def removeWorker : List WorkerProcess → String → List WorkerProcess
  | [], _ => []
  | w :: rest, a => if w.alias == a then rest else w :: removeWorker rest a

/-- `WorkerManager.stop_worker` (`src/worker_manager.py` lines 168-188):
returns `False` and leaves the state alone when the alias is absent;
otherwise pops the record (then signals the process group, which has no
registry-visible effect) and returns `True`. -/
def stop_worker (s : ManagerState) (a : String) : Bool × ManagerState :=
  if (lookupWorker s a).isSome then
    (true, { s with workers := removeWorker s.workers a })
  else (false, s)

/-- `WorkerManager.touch_worker` (`src/worker_manager.py` lines 190-194):
when present, set `last_used = now` and bump `request_count`. -/
def touch_worker (s : ManagerState) (a : String) (now : ℚ) : ManagerState :=
  match lookupWorker s a with
  | none => s
  | some _ =>
    { s with workers := s.workers.map (fun w =>
        if w.alias == a then
          { w with last_used := now, request_count := w.request_count + 1 }
        else w) }

/-- Stable insertion of a record into a list already sorted by `last_used`:
the record goes after every strictly older record and before any record
with an equal or later `last_used`. -/
def insertByLastUsed (w : WorkerProcess) : List WorkerProcess → List WorkerProcess
  | [] => [w]
  | v :: rest =>
    if v.last_used < w.last_used then v :: insertByLastUsed w rest
    else w :: v :: rest

/-- `sorted(self.workers.values(), key=lambda w: w.last_used)`
(`src/worker_manager.py` lines 155-158).  Python's sort is stable, so its
output is the unique reordering that is nondecreasing in `last_used` and
keeps records with equal `last_used` in dict insertion order; this stable
insertion sort computes exactly that reordering. -/
def sortByLastUsed : List WorkerProcess → List WorkerProcess
  | [] => []
  | w :: rest => insertByLastUsed w (sortByLastUsed rest)

/-- The eviction loop of `_evict_for_memory` (`src/worker_manager.py`
lines 160-166): walk the LRU-sorted candidates, and while
`available < needed` stop the head and add its footprint to `available`.
Returns the final state, the evicted aliases in order, and the final
accumulated headroom. -/
def evictGo : ManagerState → List WorkerProcess → ℚ → ℚ →
    ManagerState × List String × ℚ
  | s, [], available, _ => (s, [], available)
  | s, w :: rest, available, needed =>
    if needed ≤ available then (s, [], available)
    else
      let s1 := (stop_worker s w.alias).2
      let r := evictGo s1 rest (available + w.memory_gb) needed
      (r.1, w.alias :: r.2.1, r.2.2)

/-- `WorkerManager._evict_for_memory` (`src/worker_manager.py` lines
145-166): `available = status.available_gb - safety`; if already
sufficient, return; otherwise run the loop over the LRU-sorted records.
Note the source raises no error when the loop exhausts all records with
`available` still short of `needed`. -/
def evict_for_memory (s : ManagerState) (snapAvail safety needed : ℚ) :
    ManagerState × List String × ℚ :=
  let available := snapAvail - safety
  if needed ≤ available then (s, [], available)
  else evictGo s (sortByLastUsed s.workers) available needed

/-- The inputs the manager reads from outside during one `spawn_worker`
call: the clock, the model catalog `self.config.models`, the memory
oracle's `available_gb`, the configured safety margin, and the outcome of
the health gate (`_wait_for_worker` succeeding within the startup timeout,
or failing because the process died or the timeout elapsed). -/
structure Env where
  now : ℚ
  models : List (String × ModelConfig)
  snapshotAvailable : ℚ
  safety : ℚ
  healthOk : Bool
deriving Repr, DecidableEq

/-- Errors `spawn_worker` can surface: `HTTPException(404)` for an unknown
alias; `StartupFailure` for the `RuntimeError`s of `_wait_for_worker`.
`ResourceExhausted` is the error the specification's admission policy
names; it is included so that theorems can speak about its (non-)use. -/
inductive SpawnError where
  | NotFound
  | ResourceExhausted
  | StartupFailure
deriving Repr, DecidableEq

/-- Result of a `spawn_worker` call: the returned record or the raised
error. -/
inductive EnsureResult where
  | ok (w : WorkerProcess)
  | err (e : SpawnError)
deriving Repr, DecidableEq

/-- Everything observable about one `spawn_worker` call: result, the state
left behind, one port per OS process spawned (`subprocess.Popen`), the
aliases evicted, and whether the catalog / memory oracle were read on the
taken path. -/
structure EnsureOutcome where
  result : EnsureResult
  state : ManagerState
  spawnedPorts : List Nat
  evictedAliases : List String
  consultedCatalog : Bool
  consultedOracle : Bool
deriving Repr, DecidableEq

/-- `WorkerManager.spawn_worker` (`src/worker_manager.py` lines 70-118),
the whole body of which runs under `self._lock`:
if the alias is present, refresh `last_used` and return the record;
otherwise resolve the catalog entry (404 when absent), compute the needed
footprint, run `_evict_for_memory`, allocate the next port, spawn the
process, health-gate it (`_wait_for_worker`), and only on success insert
the record at the end of the dict.  On health failure the `RuntimeError`
propagates: the evictions and the port increment remain, no record is
inserted. -/
def spawn_worker (s : ManagerState) (env : Env) (a : String) : EnsureOutcome :=
  match lookupWorker s a with
  | some w =>
    let w1 := { w with last_used := env.now }
    { result := .ok w1
      state := { s with workers := s.workers.map (fun v =>
          if v.alias == a then { v with last_used := env.now } else v) }
      spawnedPorts := []
      evictedAliases := []
      consultedCatalog := false
      consultedOracle := false }
  | none =>
    match env.models.find? (fun p => p.1 == a) with
    | none =>
      { result := .err .NotFound, state := s, spawnedPorts := []
        evictedAliases := [], consultedCatalog := true, consultedOracle := false }
    | some mp =>
      let mc := mp.2
      let needed := get_model_memory_requirement mc.path mc.type
      let er := evict_for_memory s env.snapshotAvailable env.safety needed
      let s1 := er.1
      let port := s1.next_port
      let s2 := { s1 with next_port := s1.next_port + 1 }
      let w : WorkerProcess :=
        { «alias» := a, port := port, model_path := mc.path,
          model_type := mc.type, memory_gb := needed,
          started_at := env.now, last_used := env.now, request_count := 0 }
      if env.healthOk then
        { result := .ok w
          state := { s2 with workers := s2.workers ++ [w] }
          spawnedPorts := [port]
          evictedAliases := er.2.1
          consultedCatalog := true
          consultedOracle := true }
      else
        { result := .err .StartupFailure
          state := s2
          spawnedPorts := [port]
          evictedAliases := er.2.1
          consultedCatalog := true
          consultedOracle := true }

/-- `WorkerManager._monitor_idle_workers`, one sweep of the loop body
(`src/worker_manager.py` lines 204-214): collect every alias whose
`idle_time = now - last_used` is strictly greater than the idle timeout,
then stop each collected alias through `stop_worker`. -/
def monitor_sweep (s : ManagerState) (now idle_timeout : ℚ) :
    ManagerState × List String :=
  let to_evict :=
    (s.workers.filter (fun w => idle_timeout < now - w.last_used)).map
      (fun w => w.alias)
  (to_evict.foldl (fun st a => (stop_worker st a).2) s, to_evict)

/-- `WorkerManager.stop_all` (`src/worker_manager.py` lines 216-219). -/
def stop_all (s : ManagerState) : ManagerState :=
  (s.workers.map (fun w => w.alias)).foldl (fun st a => (stop_worker st a).2) s

/-! ### Abbreviations for the `let`-bound values of `spawn_worker` -/

/-- The `memory_needed` value of `spawn_worker` for a catalog entry. -/
def neededOf (mc : ModelConfig) : ℚ :=
  get_model_memory_requirement mc.path mc.type

/-- The state after the `_evict_for_memory` step of `spawn_worker`. -/
def evictedState (s : ManagerState) (env : Env) (mc : ModelConfig) : ManagerState :=
  (evict_for_memory s env.snapshotAvailable env.safety (neededOf mc)).1

/-- The record `spawn_worker` constructs for a fresh alias. -/
def newRecord (s : ManagerState) (env : Env) (a : String) (mc : ModelConfig) :
    WorkerProcess :=
  { «alias» := a, port := (evictedState s env mc).next_port,
    model_path := mc.path, model_type := mc.type, memory_gb := neededOf mc,
    started_at := env.now, last_used := env.now, request_count := 0 }

/-- The planned eviction sequence: the prefix of the LRU-sorted candidate
list that `_evict_for_memory`'s loop actually stops, together with the
accumulation `available += worker.memory_gb` before each step.  This is a
recomputation of the loop's control flow used to state properties of
`evictGo`. -/
def evictSchedule : List WorkerProcess → ℚ → ℚ → List WorkerProcess
  | [], _, _ => []
  | w :: rest, available, needed =>
    if needed ≤ available then []
    else w :: evictSchedule rest (available + w.memory_gb) needed

/-- Total estimated footprint of a list of records. -/
def sumFootprints (l : List WorkerProcess) : ℚ :=
  (l.map (fun w => w.memory_gb)).sum

/-- One registry-mutating operation of the manager's API surface.  Each
runs inside the exclusive critical section (`self._lock` for
`spawn_worker`; the single event-loop thread for the rest), so a manager
execution is a sequence of these. -/
inductive MgrOp where
  | ensure (env : Env) (a : String)
  | stop (a : String)
  | touch (a : String) (now : ℚ)
  | sweep (now idle_timeout : ℚ)
  | stopAll
deriving Repr, DecidableEq

/-- Apply one operation; also report the ports of any OS processes spawned
by it (one per `subprocess.Popen` call). -/
def applyOp (s : ManagerState) : MgrOp → ManagerState × List Nat
  | .ensure env a =>
    let o := spawn_worker s env a
    (o.state, o.spawnedPorts)
  | .stop a => ((stop_worker s a).2, [])
  | .touch a now => (touch_worker s a now, [])
  | .sweep now idle_timeout => ((monitor_sweep s now idle_timeout).1, [])
  | .stopAll => (stop_all s, [])

/-- `WorkerManager.__init__`: empty registry, port counter at the
configured base port. -/
def initState (base_port : Nat) : ManagerState :=
  { workers := [], next_port := base_port }

/-- Run a manager execution from the initial state, accumulating the
chronological list of all allocated (spawned) ports. -/
def runTrace (base_port : Nat) (ops : List MgrOp) : ManagerState × List Nat :=
  ops.foldl (fun acc op =>
    let r := applyOp acc.1 op
    (r.1, acc.2 ++ r.2)) (initState base_port, [])

/-- The port-allocation invariant carried along a trace: allocated ports
are chronologically strictly increasing, all sit below the port counter,
every live record's port was allocated, and live records' ports are
pairwise distinct. -/
def PortInv (p : ManagerState × List Nat) : Prop :=
  p.2.Pairwise (fun q r => q < r)
  ∧ (∀ q ∈ p.2, q < p.1.next_port)
  ∧ (∀ w ∈ p.1.workers, w.port ∈ p.2)
  ∧ (p.1.workers.map (fun w => w.port)).Nodup

/-! ### Concrete fixtures used by counterexamples and witnesses -/

/-- Test fixture: a record with the given alias, port, last-used time and
footprint. -/
def mkRec (a : String) (p : Nat) (lu mg : ℚ) : WorkerProcess :=
  { «alias» := a, port := p, model_path := "mlx-community/whisper-large-v3-turbo",
    model_type := "stt", memory_gb := mg, started_at := 0, last_used := lu,
    request_count := 0 }

/-- Fixture for the eviction tie-break: two records with equal
`last_used`, inserted in the order `"b"` then `"a"`. -/
def tieState : ManagerState :=
  { workers := [mkRec "b" 8212 0 (1/2), mkRec "a" 8211 0 (1/2)], next_port := 8213 }

/-- Fixture for admission under exhausted memory: one evictable record of
1.5 GB. -/
def exhaustState : ManagerState :=
  { workers := [mkRec "old" 8211 0 (3/2)], next_port := 8212 }

/-- A catalog entry whose model needs 3 GB (table entry). -/
def bigModel : ModelConfig :=
  { type := "stt", path := "mlx-community/whisper-large-v3-mlx" }

/-- Environment for the exhausted-memory admission: snapshot 1 GB
available, safety margin 2 GB, catalog entry needing 3 GB, healthy
startup. -/
def exhaustEnv : Env :=
  { now := 10, models := [("big", bigModel)],
    snapshotAvailable := 1, safety := 2, healthOk := true }

/-- The manager's empty initial registry with the default base port. -/
def emptyState : ManagerState := initState 8211

/-- Environment whose spawned worker fails its health gate. -/
def failEnv : Env :=
  { now := 3,
    models := [("w1", { type := "tts", path := "mlx-community/Kokoro-82M-bf16" })],
    snapshotAvailable := 50, safety := 2, healthOk := false }

/-- A catalog entry whose model needs 1.5 GB (table entry). -/
def w1cfg : ModelConfig :=
  { type := "stt", path := "mlx-community/whisper-large-v3-turbo" }

/-- Environment with ample memory and a healthy startup. -/
def okEnv : Env :=
  { now := 1, models := [("w1", w1cfg)],
    snapshotAvailable := 50, safety := 2, healthOk := true }

/-- Fixture record `"x"`. -/
def recX : WorkerProcess := mkRec "x" 8211 7 (3/2)

/-- Fixture record `"y"`. -/
def recY : WorkerProcess := mkRec "y" 8212 9 (1/2)

/-- A two-record registry fixture. -/
def twoState : ManagerState :=
  { workers := [recX, recY], next_port := 8213 }

/-- A trace fixture: one admission of a fresh alias. -/
def oneSpawnOps : List MgrOp := [.ensure okEnv "w1"]

/-! ### Branch equations for the match-based definitions -/

theorem spawn_worker_of_present (s : ManagerState) (env : Env) (a : String)
    (w : WorkerProcess) (h : lookupWorker s a = some w) :
    spawn_worker s env a =
      { result := .ok { w with last_used := env.now }
        state := { s with workers := s.workers.map (fun v =>
            if v.alias == a then { v with last_used := env.now } else v) }
        spawnedPorts := []
        evictedAliases := []
        consultedCatalog := false
        consultedOracle := false } := by
  unfold spawn_worker
  rw [h]

theorem spawn_worker_of_unknown (s : ManagerState) (env : Env) (a : String)
    (h1 : lookupWorker s a = none)
    (h2 : env.models.find? (fun p => p.1 == a) = none) :
    spawn_worker s env a =
      { result := .err .NotFound, state := s, spawnedPorts := []
        evictedAliases := [], consultedCatalog := true, consultedOracle := false } := by
  unfold spawn_worker
  rw [h1, h2]

theorem spawn_worker_of_spawn_ok (s : ManagerState) (env : Env) (a : String)
    (mp : String × ModelConfig)
    (h1 : lookupWorker s a = none)
    (h2 : env.models.find? (fun p => p.1 == a) = some mp)
    (h3 : env.healthOk = true) :
    spawn_worker s env a =
      { result := .ok (newRecord s env a mp.2)
        state := { workers := (evictedState s env mp.2).workers
                      ++ [newRecord s env a mp.2],
                   next_port := (evictedState s env mp.2).next_port + 1 }
        spawnedPorts := [(evictedState s env mp.2).next_port]
        evictedAliases :=
          (evict_for_memory s env.snapshotAvailable env.safety (neededOf mp.2)).2.1
        consultedCatalog := true
        consultedOracle := true } := by
  unfold spawn_worker
  rw [h1, h2]
  simp only [h3, if_true]
  rfl

theorem spawn_worker_of_spawn_fail (s : ManagerState) (env : Env) (a : String)
    (mp : String × ModelConfig)
    (h1 : lookupWorker s a = none)
    (h2 : env.models.find? (fun p => p.1 == a) = some mp)
    (h3 : env.healthOk = false) :
    spawn_worker s env a =
      { result := .err .StartupFailure
        state := { workers := (evictedState s env mp.2).workers,
                   next_port := (evictedState s env mp.2).next_port + 1 }
        spawnedPorts := [(evictedState s env mp.2).next_port]
        evictedAliases :=
          (evict_for_memory s env.snapshotAvailable env.safety (neededOf mp.2)).2.1
        consultedCatalog := true
        consultedOracle := true } := by
  unfold spawn_worker
  rw [h1, h2]
  simp only [h3, Bool.false_eq_true, if_false]
  rfl

theorem touch_worker_of_absent (s : ManagerState) (a : String) (now : ℚ)
    (h : lookupWorker s a = none) : touch_worker s a now = s := by
  unfold touch_worker
  rw [h]

theorem touch_worker_of_present (s : ManagerState) (a : String) (now : ℚ)
    (w : WorkerProcess) (h : lookupWorker s a = some w) :
    touch_worker s a now =
      { s with workers := s.workers.map (fun v =>
          if v.alias == a then
            { v with last_used := now, request_count := v.request_count + 1 }
          else v) } := by
  unfold touch_worker
  rw [h]

theorem get_model_memory_requirement_of_table (mp t : String) (q : String × ℚ)
    (h : MODEL_MEMORY_REQUIREMENTS.find? (fun p => p.1 == mp) = some q) :
    get_model_memory_requirement mp t = q.2 := by
  unfold get_model_memory_requirement
  rw [h]

/-! ### Registry lookup lemmas -/

/-- A successful lookup returns a record carrying the looked-up alias. -/
theorem alias_of_lookup {s : ManagerState} {a : String} {w : WorkerProcess}
    (h : lookupWorker s a = some w) : w.alias = a := by
  have hp := List.find?_some h
  simpa using hp

/-- Mapping an alias-preserving function across the registry commutes with
lookup. -/
theorem find?_map_of_alias_preserving (f : WorkerProcess → WorkerProcess)
    (hf : ∀ v, (f v).alias = v.alias) (l : List WorkerProcess) (b : String) :
    (l.map f).find? (fun v => v.alias == b)
      = Option.map f (l.find? (fun v => v.alias == b)) := by
  induction l with
  | nil => rfl
  | cons v rest ih =>
    by_cases hv : v.alias = b
    · rw [List.map_cons, List.find?_cons_of_pos, List.find?_cons_of_pos]
      · rfl
      · simpa using hv
      · simpa using (hf v).trans hv
    · rw [List.map_cons, List.find?_cons_of_neg, List.find?_cons_of_neg, ih]
      · simpa using hv
      · simpa using (hf v).symm ▸ hv

/-- In a registry with pairwise-distinct aliases, looking up a member's
alias finds exactly that member. -/
theorem lookup_of_mem_nodup {l : List WorkerProcess} {w : WorkerProcess}
    (hnd : (l.map (fun v => v.alias)).Nodup) (hw : w ∈ l) :
    l.find? (fun v => v.alias == w.alias) = some w := by
  induction l with
  | nil => cases hw
  | cons v rest ih =>
    have hnd' : (v.alias :: rest.map (fun u => u.alias)).Nodup := by
      simpa only [List.map_cons] using hnd
    rcases List.mem_cons.mp hw with hv | hv
    · subst hv
      exact List.find?_cons_of_pos _ (by simp)
    · by_cases he : v.alias = w.alias
      · exfalso
        have hmem : w.alias ∈ rest.map (fun u => u.alias) :=
          List.mem_map.mpr ⟨w, hv, rfl⟩
        exact (List.nodup_cons.mp hnd').1 (he ▸ hmem)
      · rw [List.find?_cons_of_neg _ (by simpa using he)]
        exact ih (List.nodup_cons.mp hnd').2 hv

/-! ### removeWorker and stop_worker lemmas -/

theorem removeWorker_sublist (l : List WorkerProcess) (a : String) :
    List.Sublist (removeWorker l a) l := by
  induction l with
  | nil => simp [removeWorker]
  | cons w rest ih =>
    unfold removeWorker
    by_cases h : w.alias = a
    · simp only [h, beq_self_eq_true, if_true]
      exact List.sublist_cons_self w rest
    · simp only [beq_eq_false_iff_ne.mpr h, Bool.false_eq_true, if_false]
      exact List.Sublist.cons₂ w ih

theorem find?_removeWorker (l : List WorkerProcess) (a b : String)
    (hnd : (l.map (fun v => v.alias)).Nodup) :
    (removeWorker l a).find? (fun v => v.alias == b)
      = if b = a then none else l.find? (fun v => v.alias == b) := by
  induction l with
  | nil => simp [removeWorker]
  | cons w rest ih =>
    have hnd' : (w.alias :: rest.map (fun u => u.alias)).Nodup := by
      simpa only [List.map_cons] using hnd
    have hnotin : w.alias ∉ rest.map (fun u => u.alias) :=
      (List.nodup_cons.mp hnd').1
    have hnd1 : (rest.map (fun u => u.alias)).Nodup :=
      (List.nodup_cons.mp hnd').2
    unfold removeWorker
    by_cases hwa : w.alias = a
    · simp only [hwa, beq_self_eq_true, if_true]
      by_cases hba : b = a
      · rw [if_pos hba, List.find?_eq_none]
        intro x hx hxb
        apply hnotin
        have hxw : x.alias = w.alias := by
          have hxb' : x.alias = b := by simpa using hxb
          rw [hxb', hba, ← hwa]
        rw [← hxw]
        exact List.mem_map.mpr ⟨x, hx, rfl⟩
      · rw [if_neg hba, List.find?_cons_of_neg]
        simp only [beq_iff_eq, hwa]
        exact fun h => hba h.symm
    · simp only [beq_eq_false_iff_ne.mpr hwa, Bool.false_eq_true, if_false]
      by_cases hwb : w.alias = b
      · rw [List.find?_cons_of_pos _ (by simpa using hwb),
          List.find?_cons_of_pos _ (by simpa using hwb),
          if_neg (fun hba => hwa (by rw [hwb, hba]))]
      · rw [List.find?_cons_of_neg _ (by simpa using hwb),
          List.find?_cons_of_neg _ (by simpa using hwb)]
        exact ih hnd1

theorem stop_worker_fst (s : ManagerState) (a : String) :
    (stop_worker s a).1 = (lookupWorker s a).isSome := by
  unfold stop_worker
  by_cases h : (lookupWorker s a).isSome <;> simp [h]

theorem stop_worker_next_port (s : ManagerState) (a : String) :
    (stop_worker s a).2.next_port = s.next_port := by
  unfold stop_worker
  by_cases h : (lookupWorker s a).isSome <;> simp [h]

theorem stop_worker_workers_sublist (s : ManagerState) (a : String) :
    List.Sublist (stop_worker s a).2.workers s.workers := by
  unfold stop_worker
  by_cases h : (lookupWorker s a).isSome <;> simp [h, removeWorker_sublist]

theorem lookup_stop (s : ManagerState) (a b : String)
    (hnd : (s.workers.map (fun v => v.alias)).Nodup) :
    lookupWorker (stop_worker s a).2 b
      = if b = a then none else lookupWorker s b := by
  unfold stop_worker
  by_cases h : (lookupWorker s a).isSome
  · simp only [h, if_true]
    exact find?_removeWorker s.workers a b hnd
  · simp only [h, Bool.false_eq_true, if_false]
    by_cases hba : b = a
    · subst hba
      rw [if_pos rfl]
      exact Option.not_isSome_iff_eq_none.mp h
    · rw [if_neg hba]

/-! ### Folded stops (idle reaper, stop_all) -/

theorem foldl_stop_workers_sublist (as : List String) (s : ManagerState) :
    List.Sublist (as.foldl (fun st a => (stop_worker st a).2) s).workers
      s.workers := by
  induction as generalizing s with
  | nil => exact List.Sublist.refl _
  | cons a rest ih =>
    simp only [List.foldl_cons]
    exact (ih _).trans (stop_worker_workers_sublist s a)

theorem foldl_stop_next_port (as : List String) (s : ManagerState) :
    (as.foldl (fun st a => (stop_worker st a).2) s).next_port = s.next_port := by
  induction as generalizing s with
  | nil => rfl
  | cons a rest ih =>
    simp only [List.foldl_cons]
    rw [ih, stop_worker_next_port]

theorem nodup_aliases_of_sublist {l1 l2 : List WorkerProcess}
    (h : List.Sublist l1 l2)
    (hnd : (l2.map (fun v => v.alias)).Nodup) :
    (l1.map (fun v => v.alias)).Nodup :=
  List.Nodup.sublist (List.Sublist.map _ h) hnd

theorem foldl_stop_lookup (as : List String) (s : ManagerState) (b : String)
    (hnd : (s.workers.map (fun v => v.alias)).Nodup) :
    lookupWorker (as.foldl (fun st a => (stop_worker st a).2) s) b
      = if b ∈ as then none else lookupWorker s b := by
  induction as generalizing s with
  | nil => simp
  | cons a rest ih =>
    simp only [List.foldl_cons]
    have hnd1 : ((stop_worker s a).2.workers.map (fun v => v.alias)).Nodup :=
      nodup_aliases_of_sublist (stop_worker_workers_sublist s a) hnd
    rw [ih _ hnd1, lookup_stop s a b hnd]
    by_cases hm : b ∈ rest
    · simp [hm]
    · by_cases hba : b = a
      · simp [hm, hba]
      · simp [hm, hba]

/-! ### The stable LRU sort -/

theorem mem_insertByLastUsed {w x : WorkerProcess} {l : List WorkerProcess} :
    x ∈ insertByLastUsed w l ↔ x = w ∨ x ∈ l := by
  induction l with
  | nil => simp [insertByLastUsed]
  | cons v rest ih =>
    unfold insertByLastUsed
    by_cases h : v.last_used < w.last_used
    · rw [if_pos h]
      simp only [List.mem_cons, ih]
      tauto
    · rw [if_neg h]
      simp only [List.mem_cons]

theorem insertByLastUsed_pairwise (w : WorkerProcess) (l : List WorkerProcess)
    (hl : l.Pairwise (fun a b => a.last_used ≤ b.last_used)) :
    (insertByLastUsed w l).Pairwise (fun a b => a.last_used ≤ b.last_used) := by
  induction l with
  | nil => simp [insertByLastUsed]
  | cons v rest ih =>
    rw [List.pairwise_cons] at hl
    unfold insertByLastUsed
    by_cases h : v.last_used < w.last_used
    · rw [if_pos h, List.pairwise_cons]
      refine ⟨fun x hx => ?_, ih hl.2⟩
      rcases mem_insertByLastUsed.mp hx with rfl | hx'
      · exact le_of_lt h
      · exact hl.1 x hx'
    · rw [if_neg h, List.pairwise_cons]
      have hwv : w.last_used ≤ v.last_used := le_of_not_lt h
      refine ⟨fun x hx => ?_, List.pairwise_cons.mpr hl⟩
      rcases List.mem_cons.mp hx with rfl | hx'
      · exact hwv
      · exact hwv.trans (hl.1 x hx')

theorem sortByLastUsed_pairwise (l : List WorkerProcess) :
    (sortByLastUsed l).Pairwise (fun a b => a.last_used ≤ b.last_used) := by
  induction l with
  | nil => simp [sortByLastUsed]
  | cons w rest ih => exact insertByLastUsed_pairwise w _ ih

theorem filter_insertByLastUsed (w : WorkerProcess) (l : List WorkerProcess)
    (t : ℚ) :
    (insertByLastUsed w l).filter (fun v => v.last_used == t)
      = if w.last_used == t then
          w :: l.filter (fun v => v.last_used == t)
        else l.filter (fun v => v.last_used == t) := by
  induction l with
  | nil =>
    unfold insertByLastUsed
    cases hw : (w.last_used == t) <;> simp [List.filter, hw]
  | cons v rest ih =>
    unfold insertByLastUsed
    by_cases h : v.last_used < w.last_used
    · rw [if_pos h]
      by_cases hw : w.last_used = t
      · have hv : (v.last_used == t) = false := by
          simp only [beq_eq_false_iff_ne]
          exact fun hvt => absurd (hw ▸ hvt ▸ h) (lt_irrefl _)
        simp [List.filter_cons, hv, hw, ih]
      · have hw' : (w.last_used == t) = false := beq_eq_false_iff_ne.mpr hw
        simp only [List.filter_cons, ih, hw', Bool.false_eq_true, if_false]
    · rw [if_neg h]
      by_cases hw : w.last_used = t
      · simp [List.filter_cons, hw]
      · have hw' : (w.last_used == t) = false := beq_eq_false_iff_ne.mpr hw
        simp [List.filter_cons, hw']

theorem filter_sortByLastUsed (l : List WorkerProcess) (t : ℚ) :
    (sortByLastUsed l).filter (fun v => v.last_used == t)
      = l.filter (fun v => v.last_used == t) := by
  induction l with
  | nil => rfl
  | cons w rest ih =>
    unfold sortByLastUsed
    rw [filter_insertByLastUsed]
    by_cases hw : w.last_used = t
    · simp [List.filter_cons, hw, ih]
    · have hw' : (w.last_used == t) = false := beq_eq_false_iff_ne.mpr hw
      simp [List.filter_cons, hw', ih]

/-! ### The eviction loop -/

theorem evictGo_aliases (pending : List WorkerProcess) (s : ManagerState)
    (available needed : ℚ) :
    (evictGo s pending available needed).2.1
      = (evictSchedule pending available needed).map (fun w => w.alias) := by
  induction pending generalizing s available with
  | nil => rfl
  | cons w rest ih =>
    unfold evictGo evictSchedule
    by_cases h : needed ≤ available
    · rw [if_pos h, if_pos h]
      rfl
    · rw [if_neg h, if_neg h]
      simp [ih]

theorem evictGo_next_port (pending : List WorkerProcess) (s : ManagerState)
    (available needed : ℚ) :
    (evictGo s pending available needed).1.next_port = s.next_port := by
  induction pending generalizing s available with
  | nil => rfl
  | cons w rest ih =>
    unfold evictGo
    by_cases h : needed ≤ available
    · rw [if_pos h]
    · rw [if_neg h]
      simp only
      rw [ih, stop_worker_next_port]

theorem evictGo_workers_sublist (pending : List WorkerProcess)
    (s : ManagerState) (available needed : ℚ) :
    List.Sublist (evictGo s pending available needed).1.workers s.workers := by
  induction pending generalizing s available with
  | nil => exact List.Sublist.refl _
  | cons w rest ih =>
    unfold evictGo
    by_cases h : needed ≤ available
    · rw [if_pos h]
    · rw [if_neg h]
      simp only
      exact (ih _ _).trans (stop_worker_workers_sublist s w.alias)

theorem evictSchedule_append (ws : List WorkerProcess) (available needed : ℚ) :
    ∃ rest, ws = evictSchedule ws available needed ++ rest := by
  induction ws generalizing available with
  | nil => exact ⟨[], rfl⟩
  | cons w tail ih =>
    unfold evictSchedule
    by_cases h : needed ≤ available
    · rw [if_pos h]
      exact ⟨w :: tail, rfl⟩
    · rw [if_neg h]
      obtain ⟨rest, hrest⟩ := ih (available + w.memory_gb)
      exact ⟨rest, by rw [List.cons_append, ← hrest]⟩

theorem evictSchedule_insufficient (ws : List WorkerProcess)
    (available needed : ℚ) (k : Nat)
    (hk : k < (evictSchedule ws available needed).length) :
    available + sumFootprints ((evictSchedule ws available needed).take k)
      < needed := by
  induction ws generalizing available k with
  | nil => simp [evictSchedule] at hk
  | cons w tail ih =>
    unfold evictSchedule at hk ⊢
    by_cases h : needed ≤ available
    · rw [if_pos h] at hk
      simp at hk
    · rw [if_neg h] at hk ⊢
      cases k with
      | zero =>
        simp only [List.take_zero, sumFootprints, List.map_nil, List.sum_nil,
          add_zero]
        exact lt_of_not_le h
      | succ k1 =>
        simp only [List.length_cons, Nat.succ_lt_succ_iff] at hk
        have := ih (available + w.memory_gb) k1 hk
        simp only [List.take_succ_cons, sumFootprints, List.map_cons,
          List.sum_cons] at this ⊢
        calc available + (w.memory_gb + (((evictSchedule tail
              (available + w.memory_gb) needed).take k1).map
                (fun v => v.memory_gb)).sum)
            = available + w.memory_gb + (((evictSchedule tail
              (available + w.memory_gb) needed).take k1).map
                (fun v => v.memory_gb)).sum := by ring
          _ < needed := this

theorem evictSchedule_of_le (ws : List WorkerProcess) (available needed : ℚ)
    (h : needed ≤ available) : evictSchedule ws available needed = [] := by
  cases ws <;> simp [evictSchedule, h]

theorem evict_for_memory_workers_sublist (s : ManagerState)
    (snapAvail safety needed : ℚ) :
    List.Sublist (evict_for_memory s snapAvail safety needed).1.workers
      s.workers := by
  unfold evict_for_memory
  by_cases h : needed ≤ snapAvail - safety
  · rw [if_pos h]
  · rw [if_neg h]
    exact evictGo_workers_sublist _ s _ _

theorem evict_for_memory_next_port (s : ManagerState)
    (snapAvail safety needed : ℚ) :
    (evict_for_memory s snapAvail safety needed).1.next_port = s.next_port := by
  unfold evict_for_memory
  by_cases h : needed ≤ snapAvail - safety
  · rw [if_pos h]
  · rw [if_neg h]
    exact evictGo_next_port _ s _ _

/-- Looking up a fresh alias in a registry extended with the fresh record
finds that record. -/
theorem find?_append_singleton_self (ws : List WorkerProcess)
    (w : WorkerProcess) (a : String)
    (hnone : ws.find? (fun v => v.alias == a) = none) (hw : w.alias = a) :
    (ws ++ [w]).find? (fun v => v.alias == a) = some w := by
  rw [List.find?_append, hnone]
  simp [List.find?, hw]

/-! ## The claims -/

/-- C10: `usage_percent` is total and never divides by zero: for a
strictly positive `total_gb` it equals `used_gb / total_gb * 100`, and for
a zero or negative `total_gb` it returns `0`, so the status report cannot
fail on a zero-total memory snapshot. -/
theorem usage_percent_total_or_zero (m : MemoryStatus) :
    (0 < m.total_gb → m.usage_percent = m.used_gb / m.total_gb * 100)
  ∧ (m.total_gb ≤ 0 → m.usage_percent = 0) := by
  unfold MemoryStatus.usage_percent
  constructor
  · intro h
    rw [if_pos h]
  · intro h
    rw [if_neg (not_lt.mpr h)]

/-- Witness for C10 at two concrete snapshots, one with a positive total
and one with a zero total. -/
theorem usage_percent_total_or_zero_witness :
    MemoryStatus.usage_percent
        { total_gb := 32, used_gb := 16, available_gb := 16,
          app_memory_gb := 8, wired_gb := 4, compressed_gb := 2 }
      = 16 / 32 * 100
  ∧ MemoryStatus.usage_percent
        { total_gb := 0, used_gb := 5, available_gb := 0,
          app_memory_gb := 0, wired_gb := 0, compressed_gb := 0 }
      = 0 :=
  ⟨(usage_percent_total_or_zero _).1 (by norm_num),
   (usage_percent_total_or_zero _).2 (by norm_num)⟩

/-- C4: `stop_worker` returns `false` and leaves the whole state
unchanged when the alias is absent; when present it returns `true`,
removes exactly that record (other aliases and the port counter are
untouched); stopping twice returns `true` then `false`.  The hypothesis
is the registry's dict invariant: aliases are pairwise distinct. -/
theorem stop_worker_spec (s : ManagerState) (a : String)
    (hnd : (s.workers.map (fun v => v.alias)).Nodup) :
    (lookupWorker s a = none → stop_worker s a = (false, s))
  ∧ (∀ w, lookupWorker s a = some w →
      (stop_worker s a).1 = true
      ∧ lookupWorker (stop_worker s a).2 a = none
      ∧ (∀ b, b ≠ a → lookupWorker (stop_worker s a).2 b = lookupWorker s b)
      ∧ (stop_worker s a).2.next_port = s.next_port)
  ∧ (stop_worker (stop_worker s a).2 a).1 = false := by
  refine ⟨?_, ?_, ?_⟩
  · intro h
    unfold stop_worker
    rw [h]
    rfl
  · intro w hw
    refine ⟨?_, ?_, ?_, stop_worker_next_port s a⟩
    · unfold stop_worker
      rw [hw]
      rfl
    · rw [lookup_stop s a a hnd, if_pos rfl]
    · intro b hb
      rw [lookup_stop s a b hnd, if_neg hb]
  · have h2 : lookupWorker (stop_worker s a).2 a = none := by
      rw [lookup_stop s a a hnd, if_pos rfl]
    rw [stop_worker_fst, h2]
    rfl

/-- Witness for C4: stopping `"x"` twice on a registry that has it
returns `true` then `false`; stopping a missing alias changes nothing. -/
theorem stop_worker_spec_witness :
    (stop_worker twoState "x").1 = true
  ∧ (stop_worker (stop_worker twoState "x").2 "x").1 = false
  ∧ stop_worker twoState "missing" = (false, twoState) := by
  have h := stop_worker_spec twoState "x" (by decide)
  have h2 := stop_worker_spec twoState "missing" (by decide)
  exact ⟨(h.2.1 recX rfl).1, h.2.2, h2.1 rfl⟩

/-- C8: `touch_worker` is a no-op for an absent alias; for a present
alias it sets that record's `last_used` to now and increments its
`request_count`, leaving its other fields, every other record, and the
port counter unchanged. -/
theorem touch_worker_spec (s : ManagerState) (a : String) (now : ℚ) :
    (lookupWorker s a = none → touch_worker s a now = s)
  ∧ (∀ w, lookupWorker s a = some w →
      lookupWorker (touch_worker s a now) a
        = some { w with last_used := now, request_count := w.request_count + 1 }
      ∧ (∀ b, b ≠ a →
          lookupWorker (touch_worker s a now) b = lookupWorker s b)
      ∧ (touch_worker s a now).next_port = s.next_port) := by
  constructor
  · exact touch_worker_of_absent s a now
  · intro w hw
    rw [touch_worker_of_present s a now w hw]
    have halias : w.alias = a := alias_of_lookup hw
    have hf : ∀ v : WorkerProcess,
        ((fun v : WorkerProcess =>
          if v.alias == a then
            { v with last_used := now, request_count := v.request_count + 1 }
          else v) v).alias = v.alias := by
      intro v
      by_cases hv : v.alias = a <;> simp [hv]
    refine ⟨?_, ?_, rfl⟩
    · simp only [lookupWorker]
      rw [find?_map_of_alias_preserving _ hf s.workers a]
      have hw' : s.workers.find? (fun v => v.alias == a) = some w := hw
      rw [hw']
      simp [halias]
    · intro b hb
      simp only [lookupWorker]
      rw [find?_map_of_alias_preserving _ hf s.workers b]
      cases hfb : s.workers.find? (fun v => v.alias == b) with
      | none => rfl
      | some v =>
        have hv : v.alias = b := alias_of_lookup hfb
        have hva : (v.alias == a) = false :=
          beq_eq_false_iff_ne.mpr (fun hva => hb (hv ▸ hva ▸ rfl))
        simp [hva]
        exact fun hva2 => absurd hva2 (beq_eq_false_iff_ne.mp hva)

/-- Witness for C8: touching `"x"` updates only `"x"`; `"y"` and a
missing alias are untouched. -/
theorem touch_worker_spec_witness :
    lookupWorker (touch_worker twoState "x" 11) "x"
      = some { recX with last_used := 11, request_count := recX.request_count + 1 }
  ∧ lookupWorker (touch_worker twoState "x" 11) "y" = lookupWorker twoState "y"
  ∧ touch_worker twoState "missing" 11 = twoState := by
  have h := touch_worker_spec twoState "x" 11
  have h2 := touch_worker_spec twoState "missing" 11
  exact ⟨(h.2 recX rfl).1, (h.2 recX rfl).2.1 "y" (by decide), h2.1 rfl⟩

/-- C6: `spawn_worker` on a present alias refreshes that record's
`last_used` and returns it, without consulting the model catalog or the
memory oracle, without evicting, and without spawning any process; every
other record and the port counter are unchanged. -/
theorem ensure_present_reuse (s : ManagerState) (env : Env) (a : String)
    (w : WorkerProcess) (h : lookupWorker s a = some w) :
    (spawn_worker s env a).result = .ok { w with last_used := env.now }
  ∧ (spawn_worker s env a).spawnedPorts = []
  ∧ (spawn_worker s env a).evictedAliases = []
  ∧ (spawn_worker s env a).consultedCatalog = false
  ∧ (spawn_worker s env a).consultedOracle = false
  ∧ (spawn_worker s env a).state.next_port = s.next_port
  ∧ lookupWorker (spawn_worker s env a).state a
      = some { w with last_used := env.now }
  ∧ (∀ b, b ≠ a →
      lookupWorker (spawn_worker s env a).state b = lookupWorker s b) := by
  rw [spawn_worker_of_present s env a w h]
  have halias : w.alias = a := alias_of_lookup h
  have hf : ∀ v : WorkerProcess,
      ((fun v : WorkerProcess =>
        if v.alias == a then { v with last_used := env.now } else v) v).alias
        = v.alias := by
    intro v
    by_cases hv : v.alias = a <;> simp [hv]
  refine ⟨rfl, rfl, rfl, rfl, rfl, rfl, ?_, ?_⟩
  · simp only [lookupWorker]
    rw [find?_map_of_alias_preserving _ hf s.workers a]
    have hw' : s.workers.find? (fun v => v.alias == a) = some w := h
    rw [hw']
    simp [halias]
  · intro b hb
    simp only [lookupWorker]
    rw [find?_map_of_alias_preserving _ hf s.workers b]
    cases hfb : s.workers.find? (fun v => v.alias == b) with
    | none => rfl
    | some v =>
      have hv : v.alias = b := alias_of_lookup hfb
      have hva : (v.alias == a) = false :=
        beq_eq_false_iff_ne.mpr (fun hva => hb (hv ▸ hva ▸ rfl))
      simp [hva]
      exact fun hva2 => absurd hva2 (beq_eq_false_iff_ne.mp hva)

/-- Witness for C6: re-ensuring the live `"x"` returns it with a fresh
`last_used`, spawns nothing, consults nothing, and leaves `"y"` alone. -/
theorem ensure_present_reuse_witness :
    (spawn_worker twoState okEnv "x").result
      = .ok { recX with last_used := (1:ℚ) }
  ∧ (spawn_worker twoState okEnv "x").spawnedPorts = []
  ∧ (spawn_worker twoState okEnv "x").consultedCatalog = false
  ∧ (spawn_worker twoState okEnv "x").consultedOracle = false
  ∧ lookupWorker (spawn_worker twoState okEnv "x").state "y"
      = lookupWorker twoState "y" := by
  have h := ensure_present_reuse twoState okEnv "x" recX rfl
  exact ⟨h.1, h.2.1, h.2.2.2.1, h.2.2.2.2.1, h.2.2.2.2.2.2.2 "y" (by decide)⟩

/-- C3: when the health gate fails (the process died before its first
successful health check or the startup timeout elapsed), `spawn_worker`
surfaces a startup failure and leaves no record for the alias in the
registry, so a subsequent ensure starts a fresh spawn cycle. -/
theorem startup_failure_spec (s : ManagerState) (env : Env) (a : String)
    (mp : String × ModelConfig)
    (habs : lookupWorker s a = none)
    (hcat : env.models.find? (fun p => p.1 == a) = some mp)
    (hfail : env.healthOk = false) :
    (spawn_worker s env a).result = .err .StartupFailure
  ∧ lookupWorker (spawn_worker s env a).state a = none := by
  rw [spawn_worker_of_spawn_fail s env a mp habs hcat hfail]
  refine ⟨rfl, ?_⟩
  have hsub : List.Sublist (evictedState s env mp.2).workers s.workers :=
    evict_for_memory_workers_sublist s env.snapshotAvailable env.safety
      (neededOf mp.2)
  have hnone : ∀ x ∈ s.workers, ¬((fun v => v.alias == a) x = true) :=
    List.find?_eq_none.mp habs
  exact List.find?_eq_none.mpr (fun x hx => hnone x (hsub.mem hx))

/-- Witness for C3: a failing health gate on a fresh alias yields the
startup failure and leaves the registry without that alias. -/
theorem startup_failure_spec_witness :
    (spawn_worker emptyState failEnv "w1").result = .err .StartupFailure
  ∧ lookupWorker (spawn_worker emptyState failEnv "w1").state "w1" = none :=
  startup_failure_spec emptyState failEnv "w1"
    ("w1", { type := "tts", path := "mlx-community/Kokoro-82M-bf16" })
    rfl rfl rfl

/-- C5: the whole body of `spawn_worker` — including the spawn and the
health gate — runs while holding `self._lock`, so two concurrent
`ensure` calls for the same fresh alias execute as two serialized
admissions; composed that way, exactly one OS process is spawned: the
first call inserts the record and the second reuses it. -/
theorem no_duplicate_spawn (s : ManagerState) (env1 env2 : Env) (a : String)
    (mp : String × ModelConfig)
    (habs : lookupWorker s a = none)
    (hcat : env1.models.find? (fun p => p.1 == a) = some mp)
    (hok : env1.healthOk = true) :
    (spawn_worker s env1 a).spawnedPorts.length
      + (spawn_worker (spawn_worker s env1 a).state env2 a).spawnedPorts.length
      = 1 := by
  rw [spawn_worker_of_spawn_ok s env1 a mp habs hcat hok]
  have hsub : List.Sublist (evictedState s env1 mp.2).workers s.workers :=
    evict_for_memory_workers_sublist s env1.snapshotAvailable env1.safety
      (neededOf mp.2)
  have hnone : (evictedState s env1 mp.2).workers.find?
      (fun v => v.alias == a) = none := by
    have habs' : ∀ x ∈ s.workers, ¬((fun v => v.alias == a) x = true) :=
      List.find?_eq_none.mp habs
    exact List.find?_eq_none.mpr (fun x hx => habs' x (hsub.mem hx))
  have hlook : lookupWorker
      { workers := (evictedState s env1 mp.2).workers
          ++ [newRecord s env1 a mp.2],
        next_port := (evictedState s env1 mp.2).next_port + 1 } a
      = some (newRecord s env1 a mp.2) :=
    find?_append_singleton_self _ _ a hnone rfl
  rw [spawn_worker_of_present _ env2 a _ hlook]
  rfl

/-- Witness for C5: two serialized admissions of the fresh alias `"w1"`
spawn exactly one process. -/
theorem no_duplicate_spawn_witness :
    (spawn_worker emptyState okEnv "w1").spawnedPorts.length
      + (spawn_worker (spawn_worker emptyState okEnv "w1").state okEnv
          "w1").spawnedPorts.length
      = 1 :=
  no_duplicate_spawn emptyState okEnv okEnv "w1" ("w1", w1cfg) rfl rfl rfl

/-- C7: one sweep of the idle reaper stops a record if and only if its
idle time `now - last_used` is strictly greater than the configured idle
timeout — a record exactly at the threshold is kept — and the sweep stops
records through the same `stop_worker` path as explicit eviction. -/
theorem idle_reaper_spec (s : ManagerState) (now idle_timeout : ℚ)
    (w : WorkerProcess)
    (hnd : (s.workers.map (fun v => v.alias)).Nodup)
    (hw : w ∈ s.workers) :
    (monitor_sweep s now idle_timeout).1
      = (monitor_sweep s now idle_timeout).2.foldl
          (fun st a => (stop_worker st a).2) s
  ∧ lookupWorker (monitor_sweep s now idle_timeout).1 w.alias
      = if idle_timeout < now - w.last_used then none else some w := by
  refine ⟨rfl, ?_⟩
  unfold monitor_sweep
  simp only
  rw [foldl_stop_lookup _ s w.alias hnd]
  by_cases hc : idle_timeout < now - w.last_used
  · have hmem : w.alias ∈ (s.workers.filter
        (fun v => idle_timeout < now - v.last_used)).map (fun v => v.alias) :=
      List.mem_map.mpr ⟨w, List.mem_filter.mpr ⟨hw, by
        simp only [decide_eq_true_eq]
        exact hc⟩, rfl⟩
    rw [if_pos hmem, if_pos hc]
  · have hnotin : w.alias ∉ (s.workers.filter
        (fun v => idle_timeout < now - v.last_used)).map (fun v => v.alias) := by
      intro hmem
      obtain ⟨v, hvf, hva⟩ := List.mem_map.mp hmem
      obtain ⟨hvl, hvc⟩ := List.mem_filter.mp hvf
      have hveq : v = w := List.inj_on_of_nodup_map hnd hvl hw hva
      rw [hveq] at hvc
      simp only [decide_eq_true_eq] at hvc
      exact hc hvc
    rw [if_neg hnotin, if_neg hc]
    exact lookup_of_mem_nodup hnd hw

/-- Witness for C7: with idle timeout 10, record `"x"` (last used at 7)
is kept by a sweep at time 17 (idle time exactly 10) and stopped by a
sweep at time 18 (idle time 11). -/
theorem idle_reaper_spec_witness :
    lookupWorker (monitor_sweep twoState 17 10).1 "x" = some recX
  ∧ lookupWorker (monitor_sweep twoState 18 10).1 "x" = none := by
  have h1 := (idle_reaper_spec twoState 17 10 recX (by decide)
    (List.mem_cons_self _ _)).2
  have h2 := (idle_reaper_spec twoState 18 10 recX (by decide)
    (List.mem_cons_self _ _)).2
  constructor
  · rw [if_neg (by norm_num [recX, mkRec])] at h1
    exact h1
  · rw [if_pos (by norm_num [recX, mkRec])] at h2
    exact h2

/-! Helpers evaluating the exhausted-memory admission fixture. -/

theorem exhaust_needed : neededOf bigModel = 3 := by
  have hfind : MODEL_MEMORY_REQUIREMENTS.find?
      (fun p => p.1 == "mlx-community/whisper-large-v3-mlx")
      = some ("mlx-community/whisper-large-v3-mlx", 3.0) := rfl
  rw [neededOf]
  simp only [bigModel]
  rw [get_model_memory_requirement_of_table _ _ _ hfind]
  norm_num

theorem exhaust_evict :
    evict_for_memory exhaustState 1 2 3
      = ({ workers := [], next_port := 8212 }, ["old"], 1/2) := by
  norm_num [evict_for_memory, evictGo, sortByLastUsed, insertByLastUsed,
    stop_worker, lookupWorker, removeWorker, exhaustState, mkRec,
    List.find?_cons_of_pos, List.find?_cons_of_neg]

theorem exhaust_evictedState :
    evictedState exhaustState exhaustEnv bigModel
      = { workers := [], next_port := 8212 } := by
  unfold evictedState
  rw [exhaust_needed]
  simp only [exhaustEnv]
  rw [exhaust_evict]

/-- C1 counterexample: with snapshot 1 GB available and a 2 GB safety
margin (headroom −1 GB), admitting a model needing 3 GB evicts the single
1.5 GB record, leaving headroom 0.5 GB < 3 GB with nothing left to evict;
the claim says the call then fails with ResourceExhausted, spawning no
process and inserting no record — but `spawn_worker` raises no such error:
it spawns a process on port 8212, returns it as `ok`, and inserts the
record for the alias. -/
theorem resource_exhausted_counterexample :
    neededOf bigModel = 3
  ∧ (evict_for_memory exhaustState 1 2 3).1.workers = []
  ∧ (evict_for_memory exhaustState 1 2 3).2.2 = 1/2
  ∧ (spawn_worker exhaustState exhaustEnv "big").spawnedPorts = [8212]
  ∧ (spawn_worker exhaustState exhaustEnv "big").result
      = .ok (newRecord exhaustState exhaustEnv "big" bigModel)
  ∧ lookupWorker (spawn_worker exhaustState exhaustEnv "big").state "big"
      = some (newRecord exhaustState exhaustEnv "big" bigModel) := by
  have hspawn := spawn_worker_of_spawn_ok exhaustState exhaustEnv "big"
    ("big", bigModel) rfl rfl rfl
  rw [hspawn, exhaust_evictedState, exhaust_evict]
  exact ⟨exhaust_needed, rfl, rfl, rfl, rfl, rfl⟩

/-- C1 (amended): when even after evicting every evictable record the
accumulated headroom is still strictly less than the needed footprint, the
admission does not fail: no ResourceExhausted error exists in the code;
the manager proceeds to spawn the worker process anyway and, when the
health gate passes, inserts the record for the alias. -/
theorem admission_never_resource_exhausted (s : ManagerState) (env : Env)
    (a : String) (mp : String × ModelConfig)
    (habs : lookupWorker s a = none)
    (hcat : env.models.find? (fun p => p.1 == a) = some mp)
    (hshort : (evict_for_memory s env.snapshotAvailable env.safety
        (neededOf mp.2)).2.2 < neededOf mp.2) :
    (spawn_worker s env a).result ≠ .err .ResourceExhausted
  ∧ (spawn_worker s env a).spawnedPorts = [(evictedState s env mp.2).next_port]
  ∧ (env.healthOk = true →
      lookupWorker (spawn_worker s env a).state a
        = some (newRecord s env a mp.2)) := by
  have hsub : List.Sublist (evictedState s env mp.2).workers s.workers :=
    evict_for_memory_workers_sublist s env.snapshotAvailable env.safety
      (neededOf mp.2)
  have hnone : (evictedState s env mp.2).workers.find?
      (fun v => v.alias == a) = none := by
    have habs' : ∀ x ∈ s.workers, ¬((fun v => v.alias == a) x = true) :=
      List.find?_eq_none.mp habs
    exact List.find?_eq_none.mpr (fun x hx => habs' x (hsub.mem hx))
  cases hh : env.healthOk with
  | true =>
    rw [spawn_worker_of_spawn_ok s env a mp habs hcat hh]
    exact ⟨by simp, rfl, fun _ =>
      find?_append_singleton_self _ _ a hnone rfl⟩
  | false =>
    rw [spawn_worker_of_spawn_fail s env a mp habs hcat hh]
    exact ⟨by simp, rfl, fun hcontra => absurd hcontra (by simp)⟩

/-- Witness for C1 (amended) at the exhausted-memory fixture. -/
theorem admission_never_resource_exhausted_witness :
    (spawn_worker exhaustState exhaustEnv "big").result
      ≠ .err .ResourceExhausted
  ∧ (spawn_worker exhaustState exhaustEnv "big").spawnedPorts
      = [(evictedState exhaustState exhaustEnv bigModel).next_port] := by
  have hshort : (evict_for_memory exhaustState exhaustEnv.snapshotAvailable
      exhaustEnv.safety (neededOf bigModel)).2.2 < neededOf bigModel := by
    rw [exhaust_needed]
    simp only [exhaustEnv]
    rw [exhaust_evict]
    norm_num
  have h := admission_never_resource_exhausted exhaustState exhaustEnv "big"
    ("big", bigModel) rfl rfl hshort
  exact ⟨h.1, h.2.1⟩

/-- C2 counterexample: two records with equal `last_used`, registered in
the order `"b"` then `"a"`.  The claim predicts the `last_used` tie is
broken by alias ordering, evicting `"a"` first; the code's stable sort
keeps dict insertion order on ties, so it evicts `"b"` first. -/
theorem eviction_tie_counterexample :
    (evict_for_memory tieState 0 0 5).2.1 = ["b", "a"]
  ∧ (mkRec "b" 8212 0 (1/2)).last_used = (mkRec "a" 8211 0 (1/2)).last_used
  ∧ ("a" : String) < "b" := by
  refine ⟨?_, rfl, ?_⟩
  · norm_num [evict_for_memory, evictGo, sortByLastUsed, insertByLastUsed,
      stop_worker, lookupWorker, removeWorker, tieState, mkRec,
      List.find?_cons_of_pos, List.find?_cons_of_neg]
  · rw [String.lt_iff_toList_lt]
    decide

/-- C2 (amended): eviction removes records in ascending `lastUsedAt`
order, with ties broken by registry insertion order (Python's stable
sort), not by alias ordering; eviction stops as soon as headroom reaches
the needed footprint, so a record is evicted only while the headroom
accumulated from all records before it in that order is still
insufficient.  Conjuncts: (1) the evicted aliases are the scheduled
prefix of the stable LRU order; (2) the schedule is a prefix of that
order; (3) the order is nondecreasing in `last_used`; (4) records with
equal `last_used` stay in registry insertion order (stability); (5) the
k-th eviction happens only while headroom is still short. -/
theorem eviction_lru_spec (s : ManagerState) (snapAvail safety needed : ℚ) :
    (evict_for_memory s snapAvail safety needed).2.1
      = (evictSchedule (sortByLastUsed s.workers) (snapAvail - safety)
          needed).map (fun w => w.alias)
  ∧ (∃ rest, sortByLastUsed s.workers
      = evictSchedule (sortByLastUsed s.workers) (snapAvail - safety) needed
          ++ rest)
  ∧ (sortByLastUsed s.workers).Pairwise (fun a b => a.last_used ≤ b.last_used)
  ∧ (∀ t : ℚ, (sortByLastUsed s.workers).filter (fun v => v.last_used == t)
      = s.workers.filter (fun v => v.last_used == t))
  ∧ (∀ k, k < (evictSchedule (sortByLastUsed s.workers) (snapAvail - safety)
        needed).length →
      snapAvail - safety
        + sumFootprints ((evictSchedule (sortByLastUsed s.workers)
            (snapAvail - safety) needed).take k) < needed) := by
  refine ⟨?_, evictSchedule_append _ _ _, sortByLastUsed_pairwise _,
    fun t => filter_sortByLastUsed _ t,
    fun k hk => evictSchedule_insufficient _ _ _ k hk⟩
  unfold evict_for_memory
  by_cases h : needed ≤ snapAvail - safety
  · rw [if_pos h, evictSchedule_of_le _ _ _ h]
    rfl
  · rw [if_neg h]
    exact evictGo_aliases _ s _ _

/-- Witness for C2 (amended) at the tie fixture: the evicted aliases are
the scheduled prefix, and the second eviction happened with headroom
still short. -/
theorem eviction_lru_spec_witness :
    (evict_for_memory tieState 0 0 5).2.1
      = (evictSchedule (sortByLastUsed tieState.workers) (0 - 0) 5).map
          (fun w => w.alias)
  ∧ (0:ℚ) - 0 + sumFootprints ((evictSchedule (sortByLastUsed
      tieState.workers) ((0:ℚ) - 0) 5).take 1) < 5 :=
  ⟨(eviction_lru_spec tieState 0 0 5).1,
   (eviction_lru_spec tieState 0 0 5).2.2.2.2 1 (by
     norm_num [evictSchedule, sortByLastUsed, insertByLastUsed, tieState,
       mkRec])⟩

/-! ### Port allocation along traces -/

theorem map_port_of_port_preserving (f : WorkerProcess → WorkerProcess)
    (hf : ∀ v, (f v).port = v.port) (l : List WorkerProcess) :
    (l.map f).map (fun w => w.port) = l.map (fun w => w.port) := by
  induction l with
  | nil => rfl
  | cons v rest ih => simp [hf, ih]

/-- One step preserves the port invariant. -/
theorem portInv_applyOp (s : ManagerState) (ports : List Nat) (op : MgrOp)
    (h : PortInv (s, ports)) :
    PortInv ((applyOp s op).1, ports ++ (applyOp s op).2) := by
  obtain ⟨hPW, hLT, hMem, hND⟩ := h
  cases op with
  | stop a =>
    simp only [applyOp, List.append_nil]
    refine ⟨hPW, ?_, ?_, ?_⟩
    · intro q hq
      rw [stop_worker_next_port]
      exact hLT q hq
    · intro w hw
      exact hMem w ((stop_worker_workers_sublist s a).mem hw)
    · exact List.Nodup.sublist
        (List.Sublist.map _ (stop_worker_workers_sublist s a)) hND
  | touch a now =>
    simp only [applyOp, List.append_nil]
    unfold touch_worker
    cases hl : lookupWorker s a with
    | none => exact ⟨hPW, hLT, hMem, hND⟩
    | some w =>
      have hport : ∀ v : WorkerProcess,
          ((fun v : WorkerProcess =>
            if v.alias == a then
              { v with last_used := now, request_count := v.request_count + 1 }
            else v) v).port = v.port := by
        intro v
        by_cases hv : v.alias = a <;> simp [hv]
      refine ⟨hPW, hLT, ?_, ?_⟩
      · intro w' hw'
        obtain ⟨v, hv, hfv⟩ := List.mem_map.mp hw'
        rw [← hfv, hport v]
        exact hMem v hv
      · rw [map_port_of_port_preserving _ hport]
        exact hND
  | sweep now idle_timeout =>
    simp only [applyOp, List.append_nil]
    unfold monitor_sweep
    simp only
    have hsub := foldl_stop_workers_sublist
      ((s.workers.filter (fun v => idle_timeout < now - v.last_used)).map
        (fun v => v.alias)) s
    refine ⟨hPW, ?_, ?_, ?_⟩
    · intro q hq
      rw [foldl_stop_next_port]
      exact hLT q hq
    · intro w hw
      exact hMem w (hsub.mem hw)
    · exact List.Nodup.sublist (List.Sublist.map _ hsub) hND
  | stopAll =>
    simp only [applyOp, List.append_nil]
    unfold stop_all
    have hsub := foldl_stop_workers_sublist
      (s.workers.map (fun w => w.alias)) s
    refine ⟨hPW, ?_, ?_, ?_⟩
    · intro q hq
      rw [foldl_stop_next_port]
      exact hLT q hq
    · intro w hw
      exact hMem w (hsub.mem hw)
    · exact List.Nodup.sublist (List.Sublist.map _ hsub) hND
  | ensure env a =>
    simp only [applyOp]
    cases hl : lookupWorker s a with
    | some w =>
      rw [spawn_worker_of_present s env a w hl]
      simp only [List.append_nil]
      have hport : ∀ v : WorkerProcess,
          ((fun v : WorkerProcess =>
            if v.alias == a then { v with last_used := env.now } else v)
              v).port = v.port := by
        intro v
        by_cases hv : v.alias = a <;> simp [hv]
      refine ⟨hPW, hLT, ?_, ?_⟩
      · intro w' hw'
        obtain ⟨v, hv, hfv⟩ := List.mem_map.mp hw'
        rw [← hfv, hport v]
        exact hMem v hv
      · rw [map_port_of_port_preserving _ hport]
        exact hND
    | none =>
      cases hc : env.models.find? (fun p => p.1 == a) with
      | none =>
        rw [spawn_worker_of_unknown s env a hl hc]
        simp only [List.append_nil]
        exact ⟨hPW, hLT, hMem, hND⟩
      | some mp =>
        have hsub : List.Sublist (evictedState s env mp.2).workers s.workers :=
          evict_for_memory_workers_sublist s env.snapshotAvailable env.safety
            (neededOf mp.2)
        have hnp : (evictedState s env mp.2).next_port = s.next_port :=
          evict_for_memory_next_port s env.snapshotAvailable env.safety
            (neededOf mp.2)
        have hesMem : ∀ w ∈ (evictedState s env mp.2).workers,
            w.port ∈ ports := fun w hw => hMem w (hsub.mem hw)
        have hesLT : ∀ w ∈ (evictedState s env mp.2).workers,
            w.port < s.next_port := fun w hw => hLT _ (hesMem w hw)
        have hPW' : (ports ++ [(evictedState s env mp.2).next_port]).Pairwise
            (fun q r => q < r) := by
          rw [List.pairwise_append]
          refine ⟨hPW, List.pairwise_singleton _ _, ?_⟩
          intro q hq r hr
          rw [List.mem_singleton] at hr
          rw [hr, hnp]
          exact hLT q hq
        have hLT' : ∀ q ∈ ports ++ [(evictedState s env mp.2).next_port],
            q < (evictedState s env mp.2).next_port + 1 := by
          intro q hq
          rcases List.mem_append.mp hq with hq1 | hq2
          · rw [hnp]
            exact Nat.lt_succ_of_lt (hLT q hq1)
          · rw [List.mem_singleton] at hq2
            rw [hq2]
            exact Nat.lt_succ_self _
        cases hh : env.healthOk with
        | true =>
          rw [spawn_worker_of_spawn_ok s env a mp hl hc hh]
          refine ⟨hPW', hLT', ?_, ?_⟩
          · intro w' hw'
            rcases List.mem_append.mp hw' with hw1 | hw2
            · exact List.mem_append_left _ (hesMem w' hw1)
            · rw [List.mem_singleton] at hw2
              rw [hw2]
              exact List.mem_append_right _ (List.mem_singleton.mpr rfl)
          · rw [List.map_append]
            rw [List.nodup_append]
            refine ⟨List.Nodup.sublist (List.Sublist.map _ hsub) hND,
              List.nodup_singleton _, ?_⟩
            intro q hq hq'
            simp only [List.map_cons, List.map_nil, List.mem_singleton] at hq'
            obtain ⟨v, hv, hvp⟩ := List.mem_map.mp hq
            have hqlt : q < s.next_port := hvp ▸ hesLT v hv
            have hq2 : q = (evictedState s env mp.2).next_port := hq'
            rw [hq2, hnp] at hqlt
            exact absurd hqlt (lt_irrefl _)
        | false =>
          rw [spawn_worker_of_spawn_fail s env a mp hl hc hh]
          refine ⟨hPW', hLT', ?_, ?_⟩
          · intro w' hw'
            exact List.mem_append_left _ (hesMem w' hw')
          · exact List.Nodup.sublist (List.Sublist.map _ hsub) hND

/-- The port invariant holds along every trace from the initial state. -/
theorem portInv_runTrace (base_port : Nat) (ops : List MgrOp) :
    PortInv (runTrace base_port ops) := by
  have hinit : PortInv (initState base_port, ([] : List Nat)) := by
    refine ⟨List.Pairwise.nil, ?_, ?_, ?_⟩ <;> simp [initState]
  unfold runTrace
  have hstep : ∀ (rest : List MgrOp) (acc : ManagerState × List Nat),
      PortInv acc →
      PortInv (rest.foldl (fun acc op =>
        let r := applyOp acc.1 op
        (r.1, acc.2 ++ r.2)) acc) := by
    intro rest
    induction rest with
    | nil => exact fun acc h => h
    | cons op tail ih =>
      intro acc h
      simp only [List.foldl_cons]
      exact ih _ (portInv_applyOp acc.1 acc.2 op h)
  exact hstep ops _ hinit

/-- C9: port allocation is a strictly monotonically increasing counter
over the manager's lifetime: along every trace of operations from the
initial state, the chronological list of allocated ports (one per spawned
process, including spawns whose health gate later failed) is strictly
increasing — so every allocation is strictly greater than all previous
ones and ports are never reused — every live record's port was allocated,
and consequently no two live records share a port. -/
theorem port_allocation_spec (base_port : Nat) (ops : List MgrOp) :
    (runTrace base_port ops).2.Pairwise (fun q r => q < r)
  ∧ (∀ w ∈ (runTrace base_port ops).1.workers,
      w.port ∈ (runTrace base_port ops).2)
  ∧ ((runTrace base_port ops).1.workers.map (fun w => w.port)).Nodup := by
  obtain ⟨h1, _, h3, h4⟩ := portInv_runTrace base_port ops
  exact ⟨h1, h3, h4⟩

/-! Helpers evaluating the one-admission trace fixture. -/

theorem w1_needed : neededOf w1cfg = 3/2 := by
  have hfind : MODEL_MEMORY_REQUIREMENTS.find?
      (fun p => p.1 == "mlx-community/whisper-large-v3-turbo")
      = some ("mlx-community/whisper-large-v3-turbo", 1.5) := rfl
  rw [neededOf]
  simp only [w1cfg]
  rw [get_model_memory_requirement_of_table _ _ _ hfind]
  norm_num

theorem w1_evictedState :
    evictedState (initState 8211) okEnv w1cfg = initState 8211 := by
  unfold evictedState
  rw [w1_needed]
  simp only [okEnv]
  unfold evict_for_memory
  rw [if_pos (by norm_num)]

theorem oneSpawn_run :
    runTrace 8211 oneSpawnOps
      = ({ workers := [newRecord (initState 8211) okEnv "w1" w1cfg],
           next_port := 8212 }, [8211]) := by
  unfold runTrace oneSpawnOps
  simp only [List.foldl_cons, List.foldl_nil, applyOp]
  rw [spawn_worker_of_spawn_ok (initState 8211) okEnv "w1" ("w1", w1cfg)
    rfl rfl rfl]
  rw [w1_evictedState]
  rfl

/-- Witness for C9 at the one-admission trace: the live ports are
pairwise distinct and the spawned record's port appears among the
allocated ports. -/
theorem port_allocation_spec_witness :
    ((runTrace 8211 oneSpawnOps).1.workers.map (fun w => w.port)).Nodup
  ∧ (newRecord (initState 8211) okEnv "w1" w1cfg).port
      ∈ (runTrace 8211 oneSpawnOps).2 := by
  refine ⟨(port_allocation_spec 8211 oneSpawnOps).2.2, ?_⟩
  apply (port_allocation_spec 8211 oneSpawnOps).2.1
  rw [oneSpawn_run]
  exact List.mem_cons_self _ _

end VoiceInsight
